import Mathlib

/-!
Verification of the skip-list container implemented in
src/project2-main/project2-main/src/SkipList.hpp.

The C++ class `shindler::ics46::project2::SkipList<K, V>` stores nodes with
next/previous/up/down pointers arranged in horizontal layers; every key
occupies a contiguous vertical tower of nodes starting at the base layer,
and each layer is bounded by two sentinel nodes holding default-constructed
keys.  A container state is fully determined by the ordered list of its
base-layer towers (key, value, tower height) together with the two counters
`SkipListSize` and `SkipListLayers`: every layer `i ≥ 1` of the pointer
structure is exactly the subsequence of towers whose height exceeds `i`,
linked in the same order between that layer's sentinels, and insert/erase
preserve this projection shape.  We embed states as that list of towers plus
the counters, instantiating the key and value template parameters with `Nat`
(keys are `unsigned int`; values are an opaque payload).  Each operation
below mirrors the control flow of the corresponding member function, with a
comment explaining any step where the pointer walk is collapsed to its
effect on the tower list.
-/

/-- Mirrors `flipCoinByteSelector` (SkipList.hpp lines 101-107):
`(key & (0xFF << byteOffset)) >> byteOffset`. -/
def flipCoinByteSelector (key : Nat) (byteOffset : Nat) : Nat :=
  (key &&& (255 <<< byteOffset)) >>> byteOffset

/-- Mirrors the integer overload of `flipCoin` (lines 111-123): XOR the four
bytes of the 32-bit key together and test bit `previousFlips % 8` of that
hash.  A C++ `unsigned int` key is always below `2 ^ 32`, and for such keys
the byte selectors read exactly its four bytes. -/
def flipCoin (key : Nat) (previousFlips : Nat) : Bool :=
  let firstByte := flipCoinByteSelector key 24
  let secondByte := flipCoinByteSelector key 16
  let thirdByte := flipCoinByteSelector key 8
  let fourthByte := flipCoinByteSelector key 0
  let hash := firstByte ^^^ secondByte ^^^ thirdByte ^^^ fourthByte
  let bitToSelect := 1 <<< (previousFlips % 8)
  (hash &&& bitToSelect) != 0

/-- Mirrors the `std::string` overload of `flipCoin` (lines 135-146).  A
textual key is its list of character bytes; the cast
`static_cast<std::byte>(character)` keeps the low 8 bits, modelled by
`% 256`.  The hash XOR-folds the bytes left to right starting from `0`. -/
def flipCoinString (key : List Nat) (previousFlips : Nat) : Bool :=
  let hash := key.foldl (fun h c => h ^^^ (c % 256)) 0
  let bitToSelect := 1 <<< (previousFlips % 8)
  (hash &&& bitToSelect) != 0

/-- One tower of the skip list: the key, its value, and the number of layers
the key's nodes occupy (`height = 1` means the key sits only on the base
layer). -/
structure Tower where
  key : Nat
  value : Nat
  height : Nat
deriving DecidableEq, Repr

/-- The two kinds of exception the C++ code throws: `std::out_of_range`
(the NotFound error of the specification) and `std::runtime_error` (thrown
by `nextKey`/`previousKey` when the neighbouring node is a sentinel). -/
inductive Err where
  | outOfRange
  | runtimeError
deriving DecidableEq, Repr

/-- A container state: base-layer towers in list order between the two base
sentinels, plus the `SkipListLayers` and `SkipListSize` counters of the C++
class. -/
structure SkipList where
  towers : List Tower
  skipListLayers : Nat
  skipListSize : Nat
deriving DecidableEq, Repr

/-- Mirrors the constructor (lines 257-283): no real nodes, two layers of
sentinels, size 0. -/
def SkipList.construct : SkipList := ⟨[], 2, 0⟩

/-- Mirrors both `findNode` overloads (lines 375-422) acting on the base
tower list.  The descent loop advances only while the next node's key is
strictly below the target, so it can never move past a node whose key equals
the target; once on the base layer the scan loop walks right and returns the
first node whose key equals the target, reaching the back sentinel (empty
list here) exactly when no such node exists, in which case the C++ throws
`std::out_of_range`. -/
def findNode (k : Nat) : List Tower → Option Tower
  | [] => none
  | t :: rest => if t.key == k then some t else findNode k rest

/-- Mirrors `find` (lines 423-433): `findNode(key)->value`, throwing
`std::out_of_range` when the key is absent. -/
def SkipList.find (s : SkipList) (k : Nat) : Except Err Nat :=
  match findNode k s.towers with
  | none => .error .outOfRange
  | some t => .ok t.value

/-- Mirrors `height` (lines 341-351): locate the base node with `findNode`,
then count nodes while following `up` links.  A tower of height `h` has `h`
nodes, so the loop returns exactly the stored height. -/
def SkipList.height (s : SkipList) (k : Nat) : Except Err Nat :=
  match findNode k s.towers with
  | none => .error .outOfRange
  | some t => .ok t.height

/-- Scan for `nextKey` (lines 353-362): find the first base node whose key
equals the target, then look at its `next` node.  If that node is the back
sentinel (`tmp->next->next == nullptr`), the C++ throws
`std::runtime_error("ERROR")`; otherwise it returns the neighbour's key. -/
def nextKeyList (k : Nat) : List Tower → Except Err Nat
  | [] => .error .outOfRange
  | t :: rest =>
    if t.key == k then
      match rest with
      | [] => .error .runtimeError
      | t2 :: _ => .ok t2.key
    else nextKeyList k rest

/-- Mirrors `nextKey` (lines 353-362). -/
def SkipList.nextKey (s : SkipList) (k : Nat) : Except Err Nat :=
  nextKeyList k s.towers

/-- Scan for `previousKey` (lines 364-372), carrying the key of the node to
the left of the current one (`none` while that node is the front sentinel).
If the found node's `previous` is the front sentinel
(`tmp->previous->previous == nullptr`), the C++ throws
`std::runtime_error("ERROR")`; otherwise it returns that key. -/
def previousKeyList (k : Nat) : Option Nat → List Tower → Except Err Nat
  | _, [] => .error .outOfRange
  | prev, t :: rest =>
    if t.key == k then
      match prev with
      | none => .error .runtimeError
      | some pk => .ok pk
    else previousKeyList k (some t.key) rest

/-- Mirrors `previousKey` (lines 364-372). -/
def SkipList.previousKey (s : SkipList) (k : Nat) : Except Err Nat :=
  previousKeyList k none s.towers

/-- Mirrors `size` (lines 326-329). -/
def SkipList.size (s : SkipList) : Nat := s.skipListSize

/-- Mirrors `empty` (lines 331-334). -/
def SkipList.empty (s : SkipList) : Bool := s.skipListSize == 0

/-- Mirrors `layers` (lines 336-339). -/
def SkipList.layers (s : SkipList) : Nat := s.skipListLayers

/-- Mirrors `allKeysInOrder` (lines 542-555): walk the base layer from just
after the front sentinel to the back sentinel, collecting keys. -/
def SkipList.allKeysInOrder (s : SkipList) : List Nat :=
  s.towers.map Tower.key

/-- Mirrors `isSmallestKey` (lines 557-561): `findNode` (throwing
`std::out_of_range` when absent), then compare `front->next->key` with the
key.  When the container is empty `front->next` is the back sentinel with
default key `0`; that branch is unreachable because `findNode` has already
thrown, and `getD 0` mirrors the sentinel's default-constructed key. -/
def SkipList.isSmallestKey (s : SkipList) (k : Nat) : Except Err Bool :=
  match findNode k s.towers with
  | none => .error .outOfRange
  | some _ => .ok (((s.towers.head?.map Tower.key).getD 0) == k)

/-- Mirrors `isLargestKey` (lines 563-567): compare `back->previous->key`
with the key. -/
def SkipList.isLargestKey (s : SkipList) (k : Nat) : Except Err Bool :=
  match findNode k s.towers with
  | none => .error .outOfRange
  | some _ => .ok (((s.towers.getLast?.map Tower.key).getD 0) == k)

/-- Removal of the first base tower whose key equals `k`, or `none` when no
such tower exists.  Mirrors `erase` (lines 569-586): `findNode` locates the
first base node with this key (throwing when absent), and the loop then
unlinks that node and every node above it through `up` links — exactly the
whole tower, leaving all other towers and both sentinel chains intact. -/
def eraseTower (k : Nat) : List Tower → Option (List Tower)
  | [] => none
  | t :: rest =>
    if t.key == k then some rest
    else (eraseTower k rest).map (fun r => t :: r)

/-- Mirrors `erase` (lines 569-586).  `SkipListSize--` is a `size_t`
decrement; it coincides with truncated subtraction whenever the size counter
is positive, which holds in any state whose counter matches the number of
towers (a tower was just found). -/
def SkipList.erase (s : SkipList) (k : Nat) : Except Err SkipList :=
  match eraseTower k s.towers with
  | none => .error .outOfRange
  | some ts => .ok ⟨ts, s.skipListLayers, s.skipListSize - 1⟩

/-- The duplicate test inside `insert` (lines 450-457): starting from the
node reached by the descent — modelled from the front sentinel, whose
default-constructed key is `0`; the descent's guard `tmp->next->key < key`
is strict, so starting earlier only adds iterations and cannot change
whether the test fires — the loop advances while the next node is a real
node with key strictly below the target, and inside the body returns `true`
(C++ `return false` from `insert`) when the current node's key equals the
target. -/
def dupFound (k : Nat) : Nat → List Tower → Bool
  | _, [] => false
  | cur, t :: rest =>
    if t.key < k then (cur == k) || dupFound k t.key rest else false

/-- Base-layer splice of `insert` (lines 459-467): the new node is linked
immediately after the last node whose key is strictly below the new key,
i.e. before the first node whose key is not. -/
def spliceTower (k v h : Nat) : List Tower → List Tower
  | [] => [⟨k, v, h⟩]
  | t :: rest =>
    if t.key < k then t :: spliceTower k v h rest
    else ⟨k, v, h⟩ :: t :: rest

/-- Fuel-bounded computation of `ceil(log2 n)`: the least `j` with
`n ≤ 2 ^ j`, searched upward from `k`. -/
def ceilLog2Go (n : Nat) : Nat → Nat → Nat
  | 0, k => k
  | fuel + 1, k => if n ≤ 2 ^ k then k else ceilLog2Go n fuel (k + 1)

/-- `ceil(log2 n)` for `n ≥ 1`: the least `j` with `n ≤ 2 ^ j`.  The C++
computes `ceil(log2(SkipListSize))` with `double` arithmetic (line 531),
which is exact for every size reachable in practice (`log2` of a power of
two is exact, and otherwise the value is strictly between two integers by a
margin far above rounding error for arguments below `2 ^ 49`). -/
def ceilLog2 (n : Nat) : Nat := ceilLog2Go n n 0

/-- The cap test of the promotion loop (lines 522-535): after a node has
been placed one layer higher, stop when the layer count equals `13` if the
size counter is at most 16, or equals `3 * ceil(log2 size) + 1` if it
exceeds 16. -/
def capReached (size sl : Nat) : Bool :=
  (decide (size ≤ 16) && (sl == 13)) ||
    (decide (16 < size) && (sl == 3 * ceilLog2 size + 1))

/-- The spec's layer cap for a given key count (spec section 3): `13` while
the key count is at most 16, otherwise `3 * ceil(log2 size) + 1`.  Written
from the specification's words for comparison with `capReached`, which is
taken from the code. -/
def layerCap (size : Nat) : Nat :=
  if size ≤ 16 then 13 else 3 * ceilLog2 size + 1

/-- The promotion loop of `insert` (lines 471-538), stripped to its effect
on the counters.  Arguments: remaining fuel (the C++ loop is unbounded; the
fuel only cuts runs that C++ would also never finish, namely a key whose
byte hash is 255 inserted when the layer count can no longer hit the cap
exactly), `numberOfFlips`, the local `layers` variable, `SkipListLayers`,
and the height of the new key's tower so far.  Each iteration with a true
coin flip first adds a spare layer when the tower is about to reach the top
(`layers == SkipListLayers - 1`, lines 479-497), then places one node a
layer up via the backward walk and `up` climb (lines 500-520) — on the
tower list this is exactly `height + 1`, since the walk splices the node at
the unique position keeping upper layers the projections of taller towers —
and finally breaks if the cap is hit, else increments `layers` and
`numberOfFlips`.  Returns the final tower height and layer count. -/
def insertLoop (key size : Nat) : Nat → Nat → Nat → Nat → Nat → Nat × Nat
  | 0, _, _, sl, h => (h, sl)
  | fuel + 1, flips, lyr, sl, h =>
    if flipCoin key flips then
      let sl2 := if lyr == sl - 1 then sl + 1 else sl
      if capReached size sl2 then (h + 1, sl2)
      else insertLoop key size fuel (flips + 1) (lyr + 1) sl2 (h + 1)
    else (h, sl)

/-- Mirrors `insert` (lines 435-539): descend, run the duplicate test (which
returns `false` from the C++ function when it fires), splice the new node
into the base layer after the last strictly-smaller key, increment
`SkipListSize`, then run the promotion loop with `numberOfFlips = 0`, the
local `layers = 1` and the current layer count; the loop reads the already
incremented size.  Returns the C++ boolean result and the new state. -/
def SkipList.insert (fuel : Nat) (s : SkipList) (key value : Nat) :
    Bool × SkipList :=
  if dupFound key 0 s.towers then (false, s)
  else
    let size2 := s.skipListSize + 1
    let hs := insertLoop key size2 fuel 0 1 s.skipListLayers 1
    (true, ⟨spliceTower key value hs.1 s.towers, hs.2, size2⟩)

/-- One public mutating operation, for building reachable states: an insert
(with promotion-loop fuel) or an erase.  An erase of an absent key throws in
C++ and leaves the state unchanged; `applyOp` keeps the old state in that
case. -/
inductive Op where
  | ins (key value fuel : Nat)
  | del (key : Nat)

/-- Apply one operation to a state. -/
def applyOp (s : SkipList) : Op → SkipList
  | .ins k v f => (SkipList.insert f s k v).2
  | .del k =>
    match SkipList.erase s k with
    | .ok s2 => s2
    | .error _ => s

/-- The state reached from a freshly constructed container by a sequence of
operations. -/
def runOps (ops : List Op) : SkipList :=
  ops.foldl applyOp SkipList.construct

/-- The state reached from a freshly constructed container by a sequence of
inserts (no erases), all with the same promotion-loop fuel. -/
def insertPairs (fuel : Nat) (ps : List (Nat × Nat)) : SkipList :=
  ps.foldl (fun s p => (SkipList.insert fuel s p.1 p.2).2) SkipList.construct

/-- Well-formedness of a container state, from the data model of the spec
(section 3): base keys strictly ascending (hence one node per distinct key),
the size counter equal to the number of towers, and at least two layers. -/
def SkipList.WF (s : SkipList) : Prop :=
  List.Pairwise (fun a b => a < b) (s.towers.map Tower.key) ∧
    s.skipListSize = s.towers.length ∧ 2 ≤ s.skipListLayers

instance (s : SkipList) : Decidable s.WF := by
  unfold SkipList.WF
  exact inferInstance

/-- The operation sequence of the spec's concrete scenario: insert the
integer keys 0, 5, 3, 9, 1 in that order. -/
def scenarioOps : List Op :=
  [.ins 0 0 8, .ins 5 0 8, .ins 3 0 8, .ins 9 0 8, .ins 1 0 8]

/-- The state after the scenario's inserts. -/
def scenarioState : SkipList := runOps scenarioOps

/-- The scenario state after the additional `erase(3)`. -/
def scenarioStateErased : SkipList := runOps (scenarioOps ++ [.del 3])

/-- An operation sequence reaching a state whose layer count exceeds the
cap for its key count: a key with byte hash 255 first drives the layer
count to 13 (the cap while at most 16 keys are present), fifteen further
keys raise the count to 16, a seventeenth key with byte hash 255 then
drives the layer count to the new cap 3 * ceil(log2 17) + 1 = 16, and a
final erase drops the key count back to 16, whose cap is 13. -/
def capCexOps : List Op :=
  [.ins 255 0 64, .ins 1 0 64, .ins 2 0 64, .ins 3 0 64, .ins 4 0 64,
   .ins 5 0 64, .ins 6 0 64, .ins 7 0 64, .ins 8 0 64, .ins 9 0 64,
   .ins 10 0 64, .ins 11 0 64, .ins 12 0 64, .ins 13 0 64, .ins 14 0 64,
   .ins 15 0 64, .ins 65280 0 64, .del 1]

/-- Insertion of a key into a list of keys immediately before the first
entry that is not strictly smaller: the shape of `insert`'s base splice on
the key list. -/
def insKey (k : Nat) : List Nat → List Nat
  | [] => [k]
  | x :: xs => if x < k then x :: insKey k xs else k :: x :: xs

/-! ### Helper lemmas about the base-layer scans -/

theorem findNode_eq_none {k : Nat} {ts : List Tower}
    (h : k ∉ ts.map Tower.key) : findNode k ts = none := by
  induction ts with
  | nil => rfl
  | cons t rest ih =>
    simp only [List.map_cons, List.mem_cons, not_or] at h
    have hne : ¬ t.key = k := fun he => h.1 he.symm
    simp only [findNode, beq_iff_eq, if_neg hne, ih h.2]

theorem findNode_eq_some {k : Nat} {ts : List Tower}
    (h : k ∈ ts.map Tower.key) :
    ∃ t, findNode k ts = some t ∧ t ∈ ts ∧ t.key = k := by
  induction ts with
  | nil => simp at h
  | cons t rest ih =>
    by_cases hk : t.key = k
    · exact ⟨t, by simp [findNode, hk], List.mem_cons_self t rest, hk⟩
    · simp only [List.map_cons, List.mem_cons] at h
      rcases h with h | h
      · exact absurd h.symm hk
      · obtain ⟨u, hu1, hu2, hu3⟩ := ih h
        exact ⟨u, by simp [findNode, beq_iff_eq, hk, hu1],
          List.mem_cons_of_mem t hu2, hu3⟩

theorem nextKeyList_not_mem {k : Nat} {ts : List Tower}
    (h : k ∉ ts.map Tower.key) : nextKeyList k ts = .error .outOfRange := by
  induction ts with
  | nil => rfl
  | cons t rest ih =>
    simp only [List.map_cons, List.mem_cons, not_or] at h
    have hne : ¬ t.key = k := fun he => h.1 he.symm
    simp only [nextKeyList, beq_iff_eq, if_neg hne, ih h.2]

theorem previousKeyList_not_mem {k : Nat} {ts : List Tower}
    (h : k ∉ ts.map Tower.key) :
    ∀ prev, previousKeyList k prev ts = .error .outOfRange := by
  induction ts with
  | nil => intro prev; rfl
  | cons t rest ih =>
    intro prev
    simp only [List.map_cons, List.mem_cons, not_or] at h
    have hne : ¬ t.key = k := fun he => h.1 he.symm
    simp only [previousKeyList, beq_iff_eq, if_neg hne, ih h.2]

theorem eraseTower_eq_none {k : Nat} {ts : List Tower}
    (h : k ∉ ts.map Tower.key) : eraseTower k ts = none := by
  induction ts with
  | nil => rfl
  | cons t rest ih =>
    simp only [List.map_cons, List.mem_cons, not_or] at h
    have hne : ¬ t.key = k := fun he => h.1 he.symm
    simp only [eraseTower, beq_iff_eq, if_neg hne, ih h.2, Option.map_none']

theorem eraseTower_subset {k : Nat} {ts ts2 : List Tower}
    (h : eraseTower k ts = some ts2) : ∀ t ∈ ts2, t ∈ ts := by
  induction ts generalizing ts2 with
  | nil => simp [eraseTower] at h
  | cons t rest ih =>
    simp only [eraseTower, beq_iff_eq] at h
    by_cases hk : t.key = k
    · rw [if_pos hk] at h
      cases h
      exact fun u hu => List.mem_cons_of_mem t hu
    · rw [if_neg hk] at h
      cases hrec : eraseTower k rest with
      | none => rw [hrec] at h; simp at h
      | some r =>
        rw [hrec] at h
        simp only [Option.map_some', Option.some.injEq] at h
        subst h
        intro u hu
        rcases List.mem_cons.1 hu with hu | hu
        · exact hu ▸ List.mem_cons_self t rest
        · exact List.mem_cons_of_mem t (ih hrec u hu)

theorem eraseTower_spec {k : Nat} {ts : List Tower}
    (hp : List.Pairwise (fun a b => a < b) (ts.map Tower.key))
    (h : k ∈ ts.map Tower.key) :
    ∃ ts2, eraseTower k ts = some ts2 ∧
      ts2.map Tower.key = (ts.map Tower.key).erase k ∧
      k ∉ ts2.map Tower.key ∧ ts2.length + 1 = ts.length := by
  induction ts with
  | nil => simp at h
  | cons t rest ih =>
    simp only [List.map_cons, List.pairwise_cons] at hp
    by_cases hk : t.key = k
    · refine ⟨rest, by simp [eraseTower, hk], ?_, ?_, by simp⟩
      · simp [List.erase_cons_head, hk]
      · intro hmem
        exact absurd (hk ▸ hp.1 k hmem) (lt_irrefl k)
    · simp only [List.map_cons, List.mem_cons] at h
      rcases h with h | h
      · exact absurd h.symm hk
      · obtain ⟨r, hr1, hr2, hr3, hr4⟩ := ih hp.2 h
        refine ⟨t :: r, ?_, ?_, ?_, by simp [← hr4]⟩
        · simp [eraseTower, beq_iff_eq, hk, hr1]
        · have : (t.key == k) = false := by simp [hk]
          simp [List.erase_cons, this, hr2]
        · simp only [List.map_cons, List.mem_cons, not_or]
          exact ⟨fun he => hk he.symm, hr3⟩

/-! ### Helper lemmas about the base-layer splice -/

theorem map_spliceTower (k v h : Nat) (ts : List Tower) :
    (spliceTower k v h ts).map Tower.key = insKey k (ts.map Tower.key) := by
  induction ts with
  | nil => rfl
  | cons t rest ih =>
    simp only [spliceTower, insKey, List.map_cons]
    by_cases hlt : t.key < k
    · rw [if_pos hlt, if_pos hlt, List.map_cons, ih]
    · rw [if_neg hlt, if_neg hlt]
      simp

theorem mem_spliceTower {u : Tower} (k v h : Nat) (ts : List Tower) :
    u ∈ spliceTower k v h ts ↔ u = ⟨k, v, h⟩ ∨ u ∈ ts := by
  induction ts with
  | nil => simp [spliceTower]
  | cons t rest ih =>
    simp only [spliceTower]
    by_cases hlt : t.key < k
    · rw [if_pos hlt]
      simp only [List.mem_cons, ih]
      tauto
    · rw [if_neg hlt]
      simp only [List.mem_cons]

theorem findNode_spliceTower (k v h : Nat) (ts : List Tower) :
    findNode k (spliceTower k v h ts) = some ⟨k, v, h⟩ := by
  induction ts with
  | nil => simp [spliceTower, findNode]
  | cons t rest ih =>
    simp only [spliceTower]
    by_cases hlt : t.key < k
    · rw [if_pos hlt]
      have : (t.key == k) = false := by
        simp only [beq_eq_false_iff_ne, ne_eq]
        exact Nat.ne_of_lt hlt
      simp [findNode, this, ih]
    · rw [if_neg hlt]
      simp [findNode]

theorem mem_insKey {x k : Nat} {l : List Nat} :
    x ∈ insKey k l ↔ x = k ∨ x ∈ l := by
  induction l with
  | nil => simp [insKey]
  | cons y ys ih =>
    simp only [insKey]
    by_cases hlt : y < k
    · rw [if_pos hlt]
      simp only [List.mem_cons, ih]
      tauto
    · rw [if_neg hlt]
      simp only [List.mem_cons]

theorem length_insKey (k : Nat) (l : List Nat) :
    (insKey k l).length = l.length + 1 := by
  induction l with
  | nil => rfl
  | cons y ys ih =>
    simp only [insKey]
    by_cases hlt : y < k
    · rw [if_pos hlt]
      simp [ih]
    · rw [if_neg hlt]
      simp

theorem pairwise_insKey {k : Nat} {l : List Nat}
    (hp : List.Pairwise (fun a b => a < b) l) (hk : k ∉ l) :
    List.Pairwise (fun a b => a < b) (insKey k l) := by
  induction l with
  | nil => simp [insKey]
  | cons y ys ih =>
    simp only [List.pairwise_cons] at hp
    simp only [List.mem_cons, not_or] at hk
    simp only [insKey]
    by_cases hlt : y < k
    · rw [if_pos hlt]
      refine List.pairwise_cons.2 ⟨?_, ih hp.2 hk.2⟩
      intro z hz
      rcases mem_insKey.1 hz with hz | hz
      · exact hz ▸ hlt
      · exact hp.1 z hz
    · rw [if_neg hlt]
      have hky : k < y := Nat.lt_of_le_of_ne (Nat.le_of_not_lt hlt)
        (fun he => hk.1 he)
      refine List.pairwise_cons.2 ⟨?_, List.pairwise_cons.2 ⟨hp.1, hp.2⟩⟩
      intro z hz
      rcases List.mem_cons.1 hz with hz | hz
      · exact hz ▸ hky
      · exact Nat.lt_trans hky (hp.1 z hz)

/-! ### The duplicate test of insert never fires on a sorted base layer -/

theorem dupFound_eq_false {k : Nat} :
    ∀ (cur : Nat) (ts : List Tower),
      List.Pairwise (fun a b => a ≤ b) (cur :: ts.map Tower.key) →
      dupFound k cur ts = false := by
  intro cur ts
  induction ts generalizing cur with
  | nil => intro _; rfl
  | cons t rest ih =>
    intro hp
    rw [List.map_cons] at hp
    rcases List.pairwise_cons.1 hp with ⟨hcur, hrest⟩
    simp only [dupFound]
    by_cases hlt : t.key < k
    · rw [if_pos hlt]
      have hc : cur ≤ t.key := hcur t.key (List.mem_cons_self _ _)
      have hne : (cur == k) = false := by
        simp only [beq_eq_false_iff_ne, ne_eq]
        exact Nat.ne_of_lt (Nat.lt_of_le_of_lt hc hlt)
      rw [hne, Bool.false_or]
      exact ih t.key hrest
    · rw [if_neg hlt]

theorem pairwise_le_zero_cons {l : List Nat}
    (hp : List.Pairwise (fun a b => a < b) l) :
    List.Pairwise (fun a b => a ≤ b) ((0 : Nat) :: l) :=
  List.pairwise_cons.2 ⟨fun x _ => Nat.zero_le x,
    hp.imp (fun h => Nat.le_of_lt h)⟩

/-! ### The layer cap -/

theorem ceilLog2Go_le {n : Nat} :
    ∀ (fuel k : Nat), n ≤ 2 ^ (k + fuel) → n ≤ 2 ^ ceilLog2Go n fuel k := by
  intro fuel
  induction fuel with
  | zero => intro k h; exact h
  | succ f ih =>
    intro k h
    simp only [ceilLog2Go]
    by_cases hk : n ≤ 2 ^ k
    · rw [if_pos hk]; exact hk
    · rw [if_neg hk]
      have he : k + (f + 1) = k + 1 + f := by omega
      rw [he] at h
      exact ih (k + 1) h

theorem ceilLog2Go_min {n : Nat} :
    ∀ (fuel k j : Nat), k ≤ j → j < ceilLog2Go n fuel k → 2 ^ j < n := by
  intro fuel
  induction fuel with
  | zero =>
    intro k j hkj hj
    exact absurd hj (Nat.not_lt_of_le hkj)
  | succ f ih =>
    intro k j hkj hj
    simp only [ceilLog2Go] at hj
    by_cases hk : n ≤ 2 ^ k
    · rw [if_pos hk] at hj
      exact absurd hj (Nat.not_lt_of_le hkj)
    · rw [if_neg hk] at hj
      rcases Nat.eq_or_lt_of_le hkj with he | hlt
      · exact he ▸ Nat.lt_of_not_le hk
      · exact ih (k + 1) j hlt hj

theorem le_two_pow_ceilLog2 {n : Nat} : n ≤ 2 ^ ceilLog2 n :=
  ceilLog2Go_le n 0 (Nat.le_of_lt (by simpa using Nat.lt_two_pow n))

theorem two_pow_lt_of_lt_ceilLog2 {n j : Nat} (h : j < ceilLog2 n) :
    2 ^ j < n :=
  ceilLog2Go_min n 0 j (Nat.zero_le j) h

theorem ceilLog2_mono {n m : Nat} (h : n ≤ m) : ceilLog2 n ≤ ceilLog2 m := by
  by_contra hc
  have hlt : ceilLog2 m < ceilLog2 n := Nat.lt_of_not_le hc
  have h1 : 2 ^ ceilLog2 m < n := two_pow_lt_of_lt_ceilLog2 hlt
  have h2 : m ≤ 2 ^ ceilLog2 m := le_two_pow_ceilLog2
  exact absurd (Nat.lt_of_lt_of_le (Nat.lt_of_lt_of_le h1 h) h2)
    (lt_irrefl _)

theorem ceilLog2_ge_five {n : Nat} (h : 16 < n) : 5 ≤ ceilLog2 n := by
  by_contra hc
  have hle : ceilLog2 n ≤ 4 := Nat.le_of_lt_succ (Nat.lt_of_not_le hc)
  have h1 : n ≤ 2 ^ ceilLog2 n := le_two_pow_ceilLog2
  have h2 : (2 : Nat) ^ ceilLog2 n ≤ 2 ^ 4 :=
    Nat.pow_le_pow_right (by decide) hle
  exact absurd (Nat.le_trans h1 h2) (Nat.not_le_of_lt h)

theorem thirteen_le_layerCap (size : Nat) : 13 ≤ layerCap size := by
  unfold layerCap
  by_cases h : size ≤ 16
  · rw [if_pos h]
  · rw [if_neg h]
    have h5 : 5 ≤ ceilLog2 size := ceilLog2_ge_five (Nat.lt_of_not_le h)
    omega

theorem layerCap_mono {n m : Nat} (h : n ≤ m) : layerCap n ≤ layerCap m := by
  unfold layerCap
  by_cases hm : m ≤ 16
  · rw [if_pos (Nat.le_trans h hm), if_pos hm]
  · rw [if_neg hm]
    by_cases hn : n ≤ 16
    · rw [if_pos hn]
      have h5 : 5 ≤ ceilLog2 m := ceilLog2_ge_five (Nat.lt_of_not_le hm)
      omega
    · rw [if_neg hn]
      have := ceilLog2_mono h
      omega

theorem capReached_true_iff {size sl : Nat} :
    capReached size sl = true ↔ sl = layerCap size := by
  unfold capReached layerCap
  by_cases h : size ≤ 16
  · simp [h, Nat.not_lt_of_le h]
  · simp [h, Nat.lt_of_not_le h]

/-! ### Bounds maintained by the promotion loop -/

theorem insertLoop_succ (key size fuel flips lyr sl h : Nat) :
    insertLoop key size (fuel + 1) flips lyr sl h =
      if flipCoin key flips then
        if capReached size (if lyr = sl - 1 then sl + 1 else sl) then
          (h + 1, if lyr = sl - 1 then sl + 1 else sl)
        else
          insertLoop key size fuel (flips + 1) (lyr + 1)
            (if lyr = sl - 1 then sl + 1 else sl) (h + 1)
      else (h, sl) := by
  by_cases hg : lyr = sl - 1 <;> simp [insertLoop, hg]

theorem insertLoop_height_bounds {key size : Nat} :
    ∀ (fuel flips lyr sl : Nat), 1 ≤ lyr → lyr ≤ sl - 1 → 2 ≤ sl →
      sl ≤ (insertLoop key size fuel flips lyr sl lyr).2 ∧
      1 ≤ (insertLoop key size fuel flips lyr sl lyr).1 ∧
      (insertLoop key size fuel flips lyr sl lyr).1 ≤
        (insertLoop key size fuel flips lyr sl lyr).2 - 1 ∧
      2 ≤ (insertLoop key size fuel flips lyr sl lyr).2 := by
  intro fuel
  induction fuel with
  | zero =>
    intro flips lyr sl h1 hle h2
    exact ⟨Nat.le_refl sl, h1, hle, h2⟩
  | succ f ih =>
    intro flips lyr sl h1 hle h2
    rw [insertLoop_succ]
    by_cases hflip : flipCoin key flips
    · rw [if_pos hflip]
      by_cases hgrow : lyr = sl - 1
      · rw [if_pos hgrow]
        by_cases hcap : capReached size (sl + 1)
        · rw [if_pos hcap]
          exact ⟨Nat.le_succ sl, Nat.le_succ_of_le h1, by omega, by omega⟩
        · rw [if_neg hcap]
          have := ih (flips + 1) (lyr + 1) (sl + 1)
            (Nat.le_succ_of_le h1) (by omega) (by omega)
          exact ⟨Nat.le_trans (Nat.le_succ sl) this.1, this.2.1,
            this.2.2.1, this.2.2.2⟩
      · rw [if_neg hgrow]
        by_cases hcap : capReached size sl
        · rw [if_pos hcap]
          exact ⟨Nat.le_refl sl, Nat.le_succ_of_le h1, by omega, h2⟩
        · rw [if_neg hcap]
          exact ih (flips + 1) (lyr + 1) sl
            (Nat.le_succ_of_le h1) (by omega) h2
    · rw [if_neg hflip]
      exact ⟨Nat.le_refl sl, h1, hle, h2⟩

theorem insertLoop_le_cap {key size : Nat} :
    ∀ (fuel flips lyr sl h : Nat), (lyr = 1 ∨ sl < layerCap size) →
      lyr ≤ sl - 1 → 2 ≤ sl → sl ≤ layerCap size →
      (insertLoop key size fuel flips lyr sl h).2 ≤ layerCap size := by
  intro fuel
  induction fuel with
  | zero =>
    intro flips lyr sl h _ _ _ hcap
    exact hcap
  | succ f ih =>
    intro flips lyr sl h hstart hle h2 hcap
    rw [insertLoop_succ]
    by_cases hflip : flipCoin key flips
    · rw [if_pos hflip]
      by_cases hgrow : lyr = sl - 1
      · rw [if_pos hgrow]
        have hslcap : sl < layerCap size := by
          rcases hstart with h1 | hlt
          · have h13 := thirteen_le_layerCap size
            omega
          · exact hlt
        by_cases hcap2 : capReached size (sl + 1)
        · rw [if_pos hcap2]
          omega
        · rw [if_neg hcap2]
          have hne : ¬ sl + 1 = layerCap size := by
            intro he
            exact hcap2 (capReached_true_iff.2 he)
          exact ih (flips + 1) (lyr + 1) (sl + 1) (h + 1)
            (Or.inr (by omega)) (by omega) (by omega) (by omega)
      · rw [if_neg hgrow]
        by_cases hcap2 : capReached size sl
        · rw [if_pos hcap2]
          exact hcap
        · rw [if_neg hcap2]
          have hne : ¬ sl = layerCap size := by
            intro he
            exact hcap2 (capReached_true_iff.2 he)
          exact ih (flips + 1) (lyr + 1) sl (h + 1)
            (Or.inr (by omega)) (by omega) h2 hcap
    · rw [if_neg hflip]
      exact hcap

/-! ### The behaviour of insert on a sorted base layer -/

theorem insert_spec (fuel : Nat) (s : SkipList) (k v : Nat)
    (hs : List.Pairwise (fun a b => a < b) s.allKeysInOrder) :
    SkipList.insert fuel s k v =
      (true,
        ⟨spliceTower k v
            (insertLoop k (s.skipListSize + 1) fuel 0 1 s.skipListLayers 1).1
            s.towers,
          (insertLoop k (s.skipListSize + 1) fuel 0 1 s.skipListLayers 1).2,
          s.skipListSize + 1⟩) := by
  have hdup : dupFound k 0 s.towers = false :=
    dupFound_eq_false 0 s.towers (pairwise_le_zero_cons hs)
  simp [SkipList.insert, hdup]

theorem foldl_insert_distinct (fuel : Nat) :
    ∀ (ps : List (Nat × Nat)) (s : SkipList),
      (ps.map Prod.fst).Nodup →
      (∀ x ∈ ps.map Prod.fst, x ∉ s.allKeysInOrder) →
      List.Pairwise (fun a b => a < b) s.allKeysInOrder →
      (ps.foldl (fun t p => (SkipList.insert fuel t p.1 p.2).2) s).skipListSize
          = s.skipListSize + ps.length ∧
        List.Pairwise (fun a b => a < b)
          (ps.foldl (fun t p => (SkipList.insert fuel t p.1 p.2).2)
              s).allKeysInOrder ∧
        ∀ x, x ∈ (ps.foldl (fun t p => (SkipList.insert fuel t p.1 p.2).2)
              s).allKeysInOrder ↔ x ∈ ps.map Prod.fst ∨ x ∈ s.allKeysInOrder
      := by
  intro ps
  induction ps with
  | nil =>
    intro s _ _ hs
    exact ⟨rfl, hs, fun x => by simp⟩
  | cons p ps ih =>
    intro s hnd hdisj hs
    simp only [List.map_cons, List.nodup_cons] at hnd
    have hp1 : p.1 ∉ s.allKeysInOrder := hdisj p.1 (by simp)
    have hins := insert_spec fuel s p.1 p.2 hs
    have h2keys : (SkipList.insert fuel s p.1 p.2).2.allKeysInOrder
        = insKey p.1 s.allKeysInOrder := by
      rw [hins]
      exact map_spliceTower p.1 p.2 _ s.towers
    have h2size : (SkipList.insert fuel s p.1 p.2).2.skipListSize
        = s.skipListSize + 1 := by
      rw [hins]
    have hsorted : List.Pairwise (fun a b => a < b)
        (SkipList.insert fuel s p.1 p.2).2.allKeysInOrder := by
      rw [h2keys]
      exact pairwise_insKey hs hp1
    have hdisj2 : ∀ x ∈ ps.map Prod.fst,
        x ∉ (SkipList.insert fuel s p.1 p.2).2.allKeysInOrder := by
      intro x hx hmem
      rw [h2keys] at hmem
      rcases mem_insKey.1 hmem with he | hmem2
      · exact hnd.1 (he ▸ hx)
      · exact hdisj x (List.mem_cons_of_mem _ hx) hmem2
    have hrec := ih (SkipList.insert fuel s p.1 p.2).2 hnd.2 hdisj2 hsorted
    simp only [List.foldl_cons]
    refine ⟨?_, hrec.2.1, ?_⟩
    · rw [hrec.1, h2size]
      simp only [List.length_cons]
      omega
    · intro x
      rw [hrec.2.2 x, h2keys, mem_insKey]
      simp only [List.map_cons, List.mem_cons]
      tauto

/-- Claim C3: for every sequence of inserts with pairwise-distinct keys and
no erases, starting from a freshly constructed container, the final size()
equals the number of inserts, and allKeysInOrder() is strictly ascending and
contains exactly the inserted keys. -/
theorem C3_distinct_inserts (fuel : Nat) (ps : List (Nat × Nat))
    (hnd : (ps.map Prod.fst).Nodup) :
    (insertPairs fuel ps).size = ps.length ∧
      List.Pairwise (fun a b => a < b) (insertPairs fuel ps).allKeysInOrder ∧
      ∀ x, x ∈ (insertPairs fuel ps).allKeysInOrder ↔ x ∈ ps.map Prod.fst
    := by
  have h := foldl_insert_distinct fuel ps SkipList.construct hnd
    (by intro x _ hmem; simp [SkipList.construct,
      SkipList.allKeysInOrder] at hmem)
    (by simp [SkipList.construct, SkipList.allKeysInOrder])
  refine ⟨?_, h.2.1, ?_⟩
  · rw [SkipList.size, insertPairs, h.1]
    simp [SkipList.construct]
  · intro x
    rw [insertPairs, h.2.2 x]
    simp [SkipList.construct, SkipList.allKeysInOrder]

theorem C3_distinct_inserts_witness :
    (insertPairs 8 [(2, 20), (1, 10)]).size = 2 ∧
      List.Pairwise (fun a b => a < b)
        (insertPairs 8 [(2, 20), (1, 10)]).allKeysInOrder ∧
      ∀ x, x ∈ (insertPairs 8 [(2, 20), (1, 10)]).allKeysInOrder ↔
        x ∈ [(2, 20), (1, 10)].map Prod.fst :=
  C3_distinct_inserts 8 [(2, 20), (1, 10)] (by decide)

/-- Claim C10: inserting a key that is not present into a well-formed
container returns true, and find() on that key afterwards returns exactly
the inserted value. -/
theorem C10_insert_find_roundtrip (fuel : Nat) (s : SkipList) (k v : Nat)
    (hwf : s.WF) (_hk : k ∉ s.allKeysInOrder) :
    (SkipList.insert fuel s k v).1 = true ∧
      (SkipList.insert fuel s k v).2.find k = .ok v := by
  have hspec := insert_spec fuel s k v hwf.1
  rw [hspec]
  exact ⟨rfl, by simp [SkipList.find, findNode_spliceTower]⟩

theorem C10_insert_find_roundtrip_witness :
    (SkipList.insert 8 (runOps [.ins 1 10 8, .ins 4 40 8]) 3 7).1 = true ∧
      (SkipList.insert 8 (runOps [.ins 1 10 8, .ins 4 40 8]) 3 7).2.find 3
        = .ok 7 :=
  C10_insert_find_roundtrip 8 (runOps [.ins 1 10 8, .ins 4 40 8]) 3 7
    (by decide) (by decide)

/-- Claim C1 (refuting evaluation): after inserting key 5 into a fresh
container, a second insert of key 5 returns true rather than false, bumps
size() to 2, and leaves two base-layer nodes with key 5.  The duplicate
test inside insert sits in a loop whose guard requires the next key to be
strictly smaller than the inserted key, so on a sorted base layer it can
never fire, contradicting the claim and the insert contract in the header
comment (lines 235-238). -/
theorem C1_duplicate_insert_mutates :
    (SkipList.insert 8 (SkipList.insert 8 SkipList.construct 5 1).2 5 2).1
        = true ∧
      (SkipList.insert 8
          (SkipList.insert 8 SkipList.construct 5 1).2 5 2).2.size = 2 ∧
      (SkipList.insert 8
              (SkipList.insert 8 SkipList.construct 5 1).2 5
              2).2.allKeysInOrder = [5, 5] ∧
      (SkipList.insert 8 SkipList.construct 5 1).2.size = 1 := by
  decide

/-- Claim C4 (refuting evaluation): the state reached from a fresh
container by the two operations insert(0, v) and insert(0, v) has base
layer [0, 0] — two nodes for the single distinct key 0, and not strictly
ascending — because the duplicate test of insert never fires. -/
theorem C4_duplicate_base_nodes :
    (runOps [.ins 0 0 8, .ins 0 0 8]).allKeysInOrder = [0, 0] ∧
      ¬ List.Pairwise (fun a b => a < b)
        (runOps [.ins 0 0 8, .ins 0 0 8]).allKeysInOrder := by
  decide

/-- Claim C5 (refuting evaluation): in the container holding only key 0,
nextKey(0) and previousKey(0) fail because the neighbouring node is a
boundary sentinel, but they throw std::runtime_error("ERROR") rather than
the std::out_of_range (NotFound) thrown for an absent key such as
nextKey(7) — two distinct error kinds, contradicting the claim and the
header comment promising std::out_of_range (lines 223-227). -/
theorem C5_boundary_error_kind :
    (runOps [.ins 0 0 8]).nextKey 0 = .error .runtimeError ∧
      (runOps [.ins 0 0 8]).previousKey 0 = .error .runtimeError ∧
      (runOps [.ins 0 0 8]).nextKey 7 = .error .outOfRange ∧
      Err.runtimeError ≠ Err.outOfRange :=
  ⟨rfl, rfl, rfl, by decide⟩

/-- Claim C6: the spec's concrete scenario.  After inserting the integer
keys 0, 5, 3, 9, 1 into a fresh container (promotion decided by the
byte-XOR flipCoin from attempt index 0 per key): allKeysInOrder() is
[0, 1, 3, 5, 9], nextKey(0) = 1, previousKey(9) = 5, isSmallestKey(0) and
isLargestKey(9) hold; and after erase(3), find(3) fails with NotFound
(std::out_of_range) and allKeysInOrder() is [0, 1, 5, 9]. -/
theorem C6_concrete_scenario :
    scenarioState.allKeysInOrder = [0, 1, 3, 5, 9] ∧
      scenarioState.nextKey 0 = .ok 1 ∧
      scenarioState.previousKey 9 = .ok 5 ∧
      scenarioState.isSmallestKey 0 = .ok true ∧
      scenarioState.isLargestKey 9 = .ok true ∧
      scenarioStateErased.find 3 = .error .outOfRange ∧
      scenarioStateErased.allKeysInOrder = [0, 1, 5, 9] :=
  ⟨rfl, rfl, rfl, rfl, rfl, rfl, rfl⟩

/-- Claim C2: erasing a present key from a well-formed container removes
that key's whole tower (its entry disappears from the base layer),
decrements the key count by exactly one, and afterwards find, height,
nextKey and previousKey on that key all fail with NotFound
(std::out_of_range); erasing an absent key fails with NotFound. -/
theorem C2_erase_spec (s : SkipList) (k : Nat) (hwf : s.WF) :
    (k ∈ s.allKeysInOrder →
      ∃ s2, s.erase k = .ok s2 ∧
        s2.size + 1 = s.size ∧
        s2.allKeysInOrder = s.allKeysInOrder.erase k ∧
        k ∉ s2.allKeysInOrder ∧
        s2.find k = .error .outOfRange ∧
        s2.height k = .error .outOfRange ∧
        s2.nextKey k = .error .outOfRange ∧
        s2.previousKey k = .error .outOfRange) ∧
    (k ∉ s.allKeysInOrder → s.erase k = .error .outOfRange) := by
  obtain ⟨hp, hsz, _⟩ := hwf
  constructor
  · intro hk
    obtain ⟨ts2, h1, h2, h3, h4⟩ := eraseTower_spec hp hk
    refine ⟨⟨ts2, s.skipListLayers, s.skipListSize - 1⟩, ?_, ?_, h2, h3,
      ?_, ?_, ?_, ?_⟩
    · simp [SkipList.erase, h1]
    · simp only [SkipList.size]
      omega
    · simp [SkipList.find, findNode_eq_none h3]
    · simp [SkipList.height, findNode_eq_none h3]
    · simp [SkipList.nextKey, nextKeyList_not_mem h3]
    · simp [SkipList.previousKey, previousKeyList_not_mem h3]
  · intro hk
    simp [SkipList.erase, eraseTower_eq_none hk]

theorem C2_erase_spec_witness :
    ∃ s2, (SkipList.mk [⟨1, 10, 1⟩, ⟨2, 20, 1⟩] 2 2).erase 1 = .ok s2 ∧
      s2.size + 1 = (SkipList.mk [⟨1, 10, 1⟩, ⟨2, 20, 1⟩] 2 2).size ∧
      s2.allKeysInOrder
        = (SkipList.mk [⟨1, 10, 1⟩, ⟨2, 20, 1⟩] 2 2).allKeysInOrder.erase 1 ∧
      1 ∉ s2.allKeysInOrder ∧
      s2.find 1 = .error .outOfRange ∧
      s2.height 1 = .error .outOfRange ∧
      s2.nextKey 1 = .error .outOfRange ∧
      s2.previousKey 1 = .error .outOfRange :=
  (C2_erase_spec (SkipList.mk [⟨1, 10, 1⟩, ⟨2, 20, 1⟩] 2 2) 1
    (by decide)).1 (by decide)

/-! ### The layer cap under insert-only histories, and its failure after
erase -/

theorem insert_cap_preserved (fuel : Nat) (s : SkipList) (k v : Nat)
    (h2 : 2 ≤ s.skipListLayers)
    (hcap : s.skipListLayers ≤ layerCap s.skipListSize) :
    2 ≤ (SkipList.insert fuel s k v).2.skipListLayers ∧
      (SkipList.insert fuel s k v).2.skipListLayers ≤
        layerCap (SkipList.insert fuel s k v).2.skipListSize := by
  unfold SkipList.insert
  by_cases hdup : dupFound k 0 s.towers = true
  · rw [if_pos hdup]
    exact ⟨h2, hcap⟩
  · rw [if_neg hdup]
    have hb := @insertLoop_height_bounds k (s.skipListSize + 1) fuel 0 1
      s.skipListLayers (Nat.le_refl 1) (by omega) h2
    have hc := @insertLoop_le_cap k (s.skipListSize + 1) fuel 0 1
      s.skipListLayers 1 (Or.inl rfl) (by omega) h2
      (Nat.le_trans hcap (layerCap_mono (Nat.le_succ _)))
    exact ⟨hb.2.2.2, hc⟩

theorem foldl_insert_cap (fuel : Nat) :
    ∀ (ps : List (Nat × Nat)) (s : SkipList),
      2 ≤ s.skipListLayers →
      s.skipListLayers ≤ layerCap s.skipListSize →
      2 ≤ (ps.foldl (fun t p =>
          (SkipList.insert fuel t p.1 p.2).2) s).skipListLayers ∧
        (ps.foldl (fun t p =>
            (SkipList.insert fuel t p.1 p.2).2) s).skipListLayers ≤
          layerCap (ps.foldl (fun t p =>
            (SkipList.insert fuel t p.1 p.2).2) s).skipListSize := by
  intro ps
  induction ps with
  | nil => intro s h2 hcap; exact ⟨h2, hcap⟩
  | cons p rest ih =>
    intro s h2 hcap
    have h := insert_cap_preserved fuel s p.1 p.2 h2 hcap
    exact ih (SkipList.insert fuel s p.1 p.2).2 h.1 h.2

/-- Claim C7 (refuting evaluation): a reachable state whose layer count
exceeds the cap for its current size.  Running `capCexOps` — a hash-255 key
drives layers() to 13, fifteen more keys bring the count to 16, a second
hash-255 key as seventeenth insert drives layers() to the new cap 16, and
one erase drops the size back to 16 — ends with size() = 16, layers() = 16,
while the cap for size 16 is 13.  The cap test only compares the layer
count for exact equality during inserts, so once an erase lowers the size,
layers() can exceed the claimed bound. -/
theorem C7_cap_exceeded_cex :
    (runOps capCexOps).size = 16 ∧ (runOps capCexOps).layers = 16 ∧
      layerCap (runOps capCexOps).size = 13 ∧
      layerCap (runOps capCexOps).size < (runOps capCexOps).layers := by
  decide

/-- Claim C7 (amended): in any state reached from a fresh container by
inserts alone, layers() never exceeds the cap for the current size (13
while size() is at most 16, otherwise 3 * ceil(log2 size()) + 1), because
each promotion step raises the layer count by at most one and the loop
breaks as soon as the count equals the cap; the layer count also never
drops below 2. -/
theorem C7_insert_only_cap (fuel : Nat) (ps : List (Nat × Nat)) :
    (insertPairs fuel ps).layers ≤ layerCap (insertPairs fuel ps).size ∧
      2 ≤ (insertPairs fuel ps).layers := by
  have h := foldl_insert_cap fuel ps SkipList.construct (by decide)
    (by decide)
  exact ⟨h.2, h.1⟩

/-! ### Tower heights in reachable states -/

theorem applyOp_height_inv (s : SkipList) (op : Op)
    (h2 : 2 ≤ s.skipListLayers)
    (hinv : ∀ t ∈ s.towers, 1 ≤ t.height ∧
      t.height ≤ s.skipListLayers - 1) :
    2 ≤ (applyOp s op).skipListLayers ∧
      ∀ t ∈ (applyOp s op).towers,
        1 ≤ t.height ∧ t.height ≤ (applyOp s op).skipListLayers - 1 := by
  cases op with
  | ins k v f =>
    simp only [applyOp]
    unfold SkipList.insert
    by_cases hdup : dupFound k 0 s.towers = true
    · rw [if_pos hdup]
      exact ⟨h2, hinv⟩
    · rw [if_neg hdup]
      dsimp only
      have hb := @insertLoop_height_bounds k (s.skipListSize + 1) f 0 1
        s.skipListLayers (Nat.le_refl 1) (by omega) h2
      refine ⟨hb.2.2.2, ?_⟩
      intro t ht
      rcases (mem_spliceTower _ _ _ _).1 ht with he | ht2
      · subst he
        exact ⟨hb.2.1, hb.2.2.1⟩
      · have hold := hinv t ht2
        have hsl := hb.1
        exact ⟨hold.1, by omega⟩
  | del k =>
    cases her : eraseTower k s.towers with
    | none =>
      simp only [applyOp, SkipList.erase, her]
      exact ⟨h2, hinv⟩
    | some ts2 =>
      simp only [applyOp, SkipList.erase, her]
      exact ⟨h2, fun t ht => hinv t (eraseTower_subset her t ht)⟩

theorem runOps_height_inv :
    ∀ (ops : List Op) (s : SkipList),
      2 ≤ s.skipListLayers →
      (∀ t ∈ s.towers, 1 ≤ t.height ∧
        t.height ≤ s.skipListLayers - 1) →
      2 ≤ (ops.foldl applyOp s).skipListLayers ∧
        ∀ t ∈ (ops.foldl applyOp s).towers,
          1 ≤ t.height ∧ t.height ≤ (ops.foldl applyOp s).skipListLayers - 1
      := by
  intro ops
  induction ops with
  | nil => intro s h2 hinv; exact ⟨h2, hinv⟩
  | cons op rest ih =>
    intro s h2 hinv
    have h := applyOp_height_inv s op h2 hinv
    exact ih (applyOp s op) h.1 h.2

/-- Claim C8: in every reachable state, every present key has
1 ≤ height(key) ≤ layers(), and height() fails with NotFound
(std::out_of_range) for an absent key. -/
theorem C8_height_bounds (ops : List Op) (k : Nat) :
    (k ∈ (runOps ops).allKeysInOrder →
      ∃ h, (runOps ops).height k = .ok h ∧ 1 ≤ h ∧
        h ≤ (runOps ops).layers) ∧
    (k ∉ (runOps ops).allKeysInOrder →
      (runOps ops).height k = .error .outOfRange) := by
  have hinv := runOps_height_inv ops SkipList.construct (by decide)
    (by simp [SkipList.construct])
  constructor
  · intro hk
    have hk2 : k ∈ (runOps ops).towers.map Tower.key := hk
    obtain ⟨t, h1, h2, h3⟩ := findNode_eq_some hk2
    refine ⟨t.height, by simp [SkipList.height, h1], ?_, ?_⟩
    · exact (hinv.2 t h2).1
    · have hh := (hinv.2 t h2).2
      simp only [SkipList.layers, runOps]
      omega
  · intro hk
    have hk2 : k ∉ (runOps ops).towers.map Tower.key := hk
    simp [SkipList.height, findNode_eq_none hk2]

theorem C8_height_bounds_witness :
    ∃ h, (runOps [.ins 5 7 8]).height 5 = .ok h ∧ 1 ≤ h ∧
      h ≤ (runOps [.ins 5 7 8]).layers :=
  (C8_height_bounds [.ins 5 7 8] 5).1 (by decide)

/-! ### Keys whose byte hash is zero never win a coin flip -/

theorem foldl_xor_mod_eq {l : List Nat} (hl : ∀ b ∈ l, b < 256) :
    ∀ a, l.foldl (fun h c => h ^^^ (c % 256)) a
      = l.foldl (fun h c => h ^^^ c) a := by
  induction l with
  | nil => intro a; rfl
  | cons c rest ih =>
    intro a
    have hc : c % 256 = c :=
      Nat.mod_eq_of_lt (hl c (List.mem_cons_self _ _))
    simp only [List.foldl_cons, hc]
    exact ih (fun b hb => hl b (List.mem_cons_of_mem _ hb)) _

theorem foldl_xor_perm {l1 l2 : List Nat} (p : l1.Perm l2) :
    ∀ a, l1.foldl (fun h c => h ^^^ c) a
      = l2.foldl (fun h c => h ^^^ c) a := by
  induction p with
  | nil => intro a; rfl
  | cons x _ ih =>
    intro a
    simp only [List.foldl_cons]
    exact ih _
  | swap x y l =>
    intro a
    simp only [List.foldl_cons]
    rw [Nat.xor_assoc, Nat.xor_comm y x, ← Nat.xor_assoc]
  | trans _ _ ih1 ih2 =>
    intro a
    exact (ih1 a).trans (ih2 a)

theorem foldl_xor_even :
    ∀ (n : Nat) (l : List Nat), l.length ≤ n →
      (∀ b ∈ l, Even (l.count b)) →
      l.foldl (fun h c => h ^^^ c) 0 = 0 := by
  intro n
  induction n with
  | zero =>
    intro l hl _
    have : l = [] := List.eq_nil_of_length_eq_zero (Nat.le_zero.1 hl)
    rw [this]
    rfl
  | succ m ih =>
    intro l hl hcount
    match l with
    | [] => rfl
    | c :: rest =>
      have hc1 : c ∈ c :: rest := List.mem_cons_self _ _
      have he : Even ((c :: rest).count c) := hcount c hc1
      have hcr : (c :: rest).count c = rest.count c + 1 :=
        List.count_cons_self c rest
      have hmem : c ∈ rest := by
        by_contra hnc
        have h0 : rest.count c = 0 := List.count_eq_zero.2 hnc
        rw [hcr, h0] at he
        obtain ⟨w, hw⟩ := he
        omega
      have hperm : (c :: rest).Perm (c :: c :: rest.erase c) :=
        List.Perm.cons c (List.perm_cons_erase hmem)
      rw [foldl_xor_perm hperm 0]
      simp only [List.foldl_cons, Nat.zero_xor, Nat.xor_self]
      apply ih (rest.erase c)
      · have h1 : rest.length ≤ m := by
          simp only [List.length_cons] at hl
          omega
        exact Nat.le_trans (List.length_erase_le _ _) h1
      · intro b hb
        have hbl : b ∈ c :: rest :=
          List.mem_cons_of_mem c (List.mem_of_mem_erase hb)
        have hbe : Even ((c :: rest).count b) := hcount b hbl
        have hcnt := hperm.count_eq b
        by_cases hbc : b = c
        · subst hbc
          have : (b :: b :: rest.erase b).count b
              = (rest.erase b).count b + 2 := by
            simp [List.count_cons_self]
          rw [hcnt, this] at hbe
          obtain ⟨w, hw⟩ := hbe
          exact ⟨w - 1, by omega⟩
        · have : (c :: c :: rest.erase c).count b
              = (rest.erase c).count b := by
            have hne2 : ¬ c = b := fun hcb => hbc hcb.symm
            simp [List.count_cons, hne2]
          rw [hcnt, this] at hbe
          exact hbe

theorem stringHash_zero {l : List Nat} (hb : ∀ b ∈ l, b < 256)
    (he : ∀ b ∈ l, Even (l.count b)) :
    l.foldl (fun h c => h ^^^ (c % 256)) 0 = 0 := by
  rw [foldl_xor_mod_eq hb 0]
  exact foldl_xor_even l.length l (Nat.le_refl _) he

/-- Claim C9: the integer key 0 (whose four bytes XOR to zero), and every
textual key — a list of byte values — in which each distinct byte value
appears an even number of times (so the bytes XOR-fold to zero, the empty
string included), fail every promotion attempt: flipCoin returns false for
every attempt index. -/
theorem C9_xor_zero_keys :
    (∀ i, flipCoin 0 i = false) ∧
      (∀ (key : List Nat), (∀ b ∈ key, b < 256) →
        (∀ b ∈ key, Even (key.count b)) →
        ∀ i, flipCoinString key i = false) := by
  constructor
  · intro i
    simp [flipCoin, flipCoinByteSelector]
  · intro key hb he i
    have h0 : key.foldl (fun h c => h ^^^ (c % 256)) 0 = 0 :=
      stringHash_zero hb he
    show ((key.foldl (fun h c => h ^^^ (c % 256)) 0
      &&& (1 <<< (i % 8))) != 0) = false
    rw [h0]
    simp

theorem C9_xor_zero_keys_witness :
    flipCoin 0 3 = false ∧ flipCoinString [97, 98, 98, 97] 5 = false ∧
      flipCoinString [] 2 = false :=
  ⟨C9_xor_zero_keys.1 3,
    C9_xor_zero_keys.2 [97, 98, 98, 97] (by decide) (by decide) 5,
    C9_xor_zero_keys.2 [] (by decide) (by decide) 2⟩
